import Mathlib

/-!
Verification of the route-ratelimit middleware (Rust) against its
natural-language specification.

The development shallowly embeds the relevant source functions:

* `src/gcra.rs` — `GcraState::try_acquire`, the GCRA cell.  The cell state
  (a `u64` theoretical arrival time) and all time arguments are modelled as
  `Nat`; the source's `u64` saturating arithmetic is modelled explicitly
  with `satAdd` / `satSub` / `satMul` capping at `U64MAX`.
* `src/types.rs` — `RateLimit` (including `emission_interval`, which uses
  Rust `Duration / u32` division, embedded exactly in `durDivNanos`) and
  `Route::matches`.  Rust strings are modelled as `List Char`.
* `src/middleware.rs` — `check_and_apply_limits` (one pass of the outer
  loop, `admitPass`: the Delay branch of the real code sleeps and restarts
  the pass, the Error branch returns; a pass captures both returns) and
  `cleanup`.  The `DashMap` state table is modelled as an association list.
-/

/-- `u64::MAX` = 2^64 - 1. -/
def U64MAX : Nat := 2 ^ 64 - 1

/-- `u64::saturating_add`, on the `Nat` embedding of `u64` values. -/
def satAdd (a b : Nat) : Nat := min (a + b) U64MAX

/-- `u64::saturating_sub`.  `Nat` subtraction is already truncated at 0. -/
def satSub (a b : Nat) : Nat := a - b

/-- `u64::saturating_mul`, on the `Nat` embedding of `u64` values. -/
def satMul (a b : Nat) : Nat := min (a * b) U64MAX

/-- Result of `GcraState::try_acquire`: `Ok(())` or `Err(wait_duration)`,
with the wait duration in nanoseconds. -/
inductive AcqResult where
  | ok : AcqResult
  | wait : Nat → AcqResult
deriving DecidableEq

/-- The candidate new theoretical arrival time computed by
`GcraState::try_acquire` (src/gcra.rs lines 43-49): start fresh from `now`
when the cell has recovered (`tat <= now`), otherwise add to the queue. -/
def gcraNewTat (tat now e : Nat) : Nat :=
  if tat ≤ now then satAdd now e else satAdd tat e

/-- `GcraState::try_acquire` (src/gcra.rs lines 33-70), sequentially: the
returned pair is (result, new tat state).  In the source the state is an
`AtomicU64` updated by compare-and-swap; with a single caller the CAS
always succeeds, so the loop runs exactly once and the update is the
functional state returned here.  The rate-limited branch returns with the
state unchanged. -/
def try_acquire (tat now e w : Nat) : AcqResult × Nat :=
  if satAdd now w < gcraNewTat tat now e then
    (AcqResult.wait (satSub (gcraNewTat tat now e) (satAdd now w)), tat)
  else
    (AcqResult.ok, gcraNewTat tat now e)

/-- Nanoseconds per second, as in Rust `Duration`. -/
def nanosPerSec : Nat := 1000000000

/-- Rust `Duration / u32` (`Duration::checked_div`), on a duration given as
total nanoseconds `n`: the seconds part `n / nanosPerSec` and the
subsecond part `n % nanosPerSec` are divided separately, and the full
remainder `(secs % r) * nanosPerSec + (nanos % r)` is carried into the
nanosecond quotient.  The result, read back as total nanoseconds, is
exactly the floor of `n / r` (`durDivNanos_eq_div`).  This is what
`RateLimit::emission_interval` (src/types.rs lines 45-50) computes, read
back via `as_nanos() as u64`. -/
def durDivNanos (n r : Nat) : Nat :=
  (n / nanosPerSec / r) * nanosPerSec
    + (n % nanosPerSec) / r
    + ((n / nanosPerSec % r) * nanosPerSec + (n % nanosPerSec) % r) / r

/-- A `RateLimit` (src/types.rs lines 17-24): a request count and a window,
the window held in nanoseconds (the constructor asserts it fits in u64). -/
structure RateLimit where
  requests : Nat
  window : Nat
deriving DecidableEq

/-- The assertions of `RateLimit::new` (src/types.rs lines 35-43) plus the
`u32` range of `requests`: nonzero count, positive window, window at most
`u64::MAX` nanoseconds. -/
def validRateLimit (requests window : Nat) : Prop :=
  1 ≤ requests ∧ requests < 2 ^ 32 ∧ 0 < window ∧ window ≤ U64MAX

/-- `RateLimit::emission_interval().as_nanos() as u64`. -/
def emissionNanos (L : RateLimit) : Nat := durDivNanos L.window L.requests

/-- One cell driven through a sequence of `try_acquire` calls from state
`tat`: the number of admitted (OK) calls whose `now` argument lies in the
closed interval `[lo, hi]`. -/
def okCount (e w lo hi : Nat) : Nat → List Nat → Nat
  | _, [] => 0
  | tat, t :: ts =>
    (if (try_acquire tat t e w).1 = AcqResult.ok ∧ lo ≤ t ∧ t ≤ hi then 1 else 0)
      + okCount e w lo hi (try_acquire tat t e w).2 ts

/-- `ThrottleBehavior` (src/types.rs lines 8-15). -/
inductive ThrottleBehavior where
  | delay : ThrottleBehavior
  | error : ThrottleBehavior
deriving DecidableEq

/-- An outgoing request as the middleware observes it: the URL's hostname
portion (`req.url().host_str()`, `none` when the URL has no host), the
method, and the URL path.  Rust strings are modelled as `List Char`. -/
structure Request where
  host : Option (List Char)
  method : List Char
  path : List Char
deriving DecidableEq

/-- A `Route` (src/types.rs lines 52-65).  The field `pathPre` models the
source field `path_prefix`. -/
structure Route where
  host : Option (List Char)
  method : Option (List Char)
  pathPre : List Char
  limits : List RateLimit
  onLimit : ThrottleBehavior
deriving DecidableEq

/-- The host check of `Route::matches` (src/types.rs lines 80-89): a
specific route host must equal the request's hostname; a request without
a hostname fails a specific host. -/
def hostMatch (rh qh : Option (List Char)) : Bool :=
  match rh, qh with
  | some h, some x => x == h
  | some _, none => false
  | none, _ => true

/-- The method check of `Route::matches` (src/types.rs lines 91-96). -/
def methodMatch (rm : Option (List Char)) (qm : List Char) : Bool :=
  match rm with
  | some m => qm == m
  | none => true

/-- The path check of `Route::matches` (src/types.rs lines 98-112): an
empty route path prefix matches everything; otherwise the path must start
with the prefix and the remainder must be empty or begin with '/'. -/
def pathBoundaryMatch (pre path : List Char) : Bool :=
  match pre with
  | [] => true
  | _ :: _ =>
    if pre.isPrefixOf path then
      match path.drop pre.length with
      | [] => true
      | c :: _ => c == '/'
    else false

/-- `Route::matches` (src/types.rs lines 79-115): the three checks in the
source's early-return sequence, as a conjunction. -/
def Route.matches (r : Route) (req : Request) : Bool :=
  hostMatch r.host req.host
    && (methodMatch r.method req.method
        && pathBoundaryMatch r.pathPre req.path)

/-- The matching rule as the specification words it (§4.2 of the spec):
used only to compare with `Route.matches`. -/
def SpecMatches (r : Route) (req : Request) : Prop :=
  (r.host = none ∨ ∃ h, r.host = some h ∧ req.host = some h) ∧
  (r.method = none ∨ r.method = some req.method) ∧
  (r.pathPre = [] ∨ ∃ rest, req.path = r.pathPre ++ rest ∧
    (rest = [] ∨ ∃ s, rest = '/' :: s))

/-- `RouteKey` (src/types.rs lines 118-123). -/
structure RouteKey where
  route_index : Nat
  limit_index : Nat
deriving DecidableEq

/-- The `DashMap<RouteKey, GcraState>` state table, as an association list
from key to stored tat value. -/
abbrev Table := List (RouteKey × Nat)

/-- Look up a cell's tat. -/
def getTat : Table → RouteKey → Option Nat
  | [], _ => none
  | (k', v) :: rest, k => if k' = k then some v else getTat rest k

/-- Store a cell's tat, inserting the key if absent. -/
def upsert : Table → RouteKey → Nat → Table
  | [], k, v => [(k, v)]
  | (k', v') :: rest, k, v =>
    if k' = k then (k, v) :: rest else (k', v') :: upsert rest k v

/-- `self.state.entry(key).or_insert_with(GcraState::new)`
(src/middleware.rs line 128): create the cell with tat 0 when absent. -/
def ensureCell (σ : Table) (k : RouteKey) : Table :=
  match getTat σ k with
  | some _ => σ
  | none => upsert σ k 0

/-- Outcome of one pass of `check_and_apply_limits`: all limits passed, or
some cell rejected with the route's overflow behavior and the wait. -/
inductive PassOutcome where
  | ok : PassOutcome
  | limited : ThrottleBehavior → Nat → PassOutcome
deriving DecidableEq

/-- The inner limit walk of `check_and_apply_limits` (src/middleware.rs
lines 118-156) over one matching route's limits: get or create the cell,
try to acquire; on OK store the new tat and continue, on WAIT stop with
the route's behavior (the Delay branch of the source sleeps and restarts
the outer loop; the Error branch returns the error). -/
def acquireLimits (now route_index : Nat) (b : ThrottleBehavior) :
    List RateLimit → Nat → Table → PassOutcome × Table
  | [], _, σ => (PassOutcome.ok, σ)
  | L :: rest, limit_index, σ =>
    let k : RouteKey := ⟨route_index, limit_index⟩
    let σ1 := ensureCell σ k
    let tat := (getTat σ1 k).getD 0
    match try_acquire tat now (emissionNanos L) L.window with
    | (AcqResult.ok, newTat) =>
        acquireLimits now route_index b rest (limit_index + 1) (upsert σ1 k newTat)
    | (AcqResult.wait d, _) => (PassOutcome.limited b d, σ1)

/-- The route walk of `check_and_apply_limits` (src/middleware.rs lines
113-157): skip non-matching routes, walk each matching route's limits. -/
def admitRoutes (req : Request) (now : Nat) :
    List Route → Nat → Table → PassOutcome × Table
  | [], _, σ => (PassOutcome.ok, σ)
  | R :: rest, route_index, σ =>
    if Route.matches R req then
      match acquireLimits now route_index R.onLimit R.limits 0 σ with
      | (PassOutcome.ok, σ1) => admitRoutes req now rest (route_index + 1) σ1
      | out => out
    else
      admitRoutes req now rest (route_index + 1) σ

/-- One pass of the `'outer` loop of `check_and_apply_limits`
(src/middleware.rs lines 109-162) at a fixed `now`.  The source loops:
an `ok` pass returns `Ok(())`; a `limited error d` pass returns
`Err(RateLimited(d))`; a `limited delay d` pass sleeps and reruns the pass
with a fresh `now`. -/
def admitPass (routes : List Route) (req : Request) (now : Nat) (σ : Table) :
    PassOutcome × Table :=
  admitRoutes req now routes 0 σ

/-- The retention predicate of `cleanup` (src/middleware.rs lines 81-98):
out-of-bounds keys are dropped; otherwise keep the entry iff
`tat > now.saturating_sub(window.saturating_mul(2))`. -/
def keepEntry (routes : List Route) (now : Nat) (k : RouteKey) (tat : Nat) : Bool :=
  match routes[k.route_index]? with
  | none => false
  | some R =>
    match R.limits[k.limit_index]? with
    | none => false
    | some L => decide (satSub now (satMul L.window 2) < tat)

/-- `RateLimitMiddleware::cleanup` (src/middleware.rs lines 79-99):
`state.retain(...)` over the table. -/
def cleanup (routes : List Route) (now : Nat) (σ : Table) : Table :=
  σ.filter fun p => keepEntry routes now p.1 p.2

/-- The limit a key refers to, when the key is in bounds. -/
def limitOf (routes : List Route) (k : RouteKey) : Option RateLimit :=
  match routes[k.route_index]? with
  | none => none
  | some R => R.limits[k.limit_index]?

/-- All stored tat values are `u64`-ranged (true of every table the Rust
code can hold, since cells are `AtomicU64`). -/
def boundedTable (σ : Table) : Prop :=
  ∀ k v, getTat σ k = some v → v ≤ U64MAX

/-- Every cell present in `σ` is still present in `σ'` with a tat at least
its old value. -/
def tableGrows (σ σ' : Table) : Prop :=
  ∀ k v, getTat σ k = some v → ∃ v', getTat σ' k = some v' ∧ v ≤ v'

/-- Route used by concrete scenarios: catch-all with two limits
`(1 request, 100 ns)` and `(1 request, 10 ns)`, overflow policy Error. -/
def cxLimitA : RateLimit := ⟨1, 100⟩

def cxLimitB : RateLimit := ⟨1, 10⟩

def cxRoute : Route := ⟨none, none, [], [cxLimitA, cxLimitB], ThrottleBehavior.error⟩

def cxReq : Request := ⟨none, [], []⟩

def cxTable : Table := [(⟨0, 1⟩, 25)]

/-- Route with path prefix "/order" for the matching examples. -/
def orderRoute : Route :=
  ⟨none, none, String.toList "/order", [⟨1, 1⟩], ThrottleBehavior.delay⟩

/-- Route with a specific host, for the no-match scenario. -/
def nmRoute : Route :=
  ⟨some (String.toList "example.com"), none, [], [⟨1, 1⟩], ThrottleBehavior.error⟩

def nmReq : Request := ⟨none, [], []⟩

lemma satAdd_le_u64max (a b : Nat) : satAdd a b ≤ U64MAX :=
  min_le_right _ _

lemma gcraNewTat_le_u64max (tat now e : Nat) : gcraNewTat tat now e ≤ U64MAX := by
  unfold gcraNewTat
  split <;> exact satAdd_le_u64max _ _

lemma satAdd_eq_add {a b : Nat} (h : a + b ≤ U64MAX) : satAdd a b = a + b :=
  min_eq_left h

/-- The cell state never decreases across a call (for `u64`-ranged states). -/
lemma try_acquire_snd_ge (tat now e w : Nat) (h : tat ≤ U64MAX) :
    tat ≤ (try_acquire tat now e w).2 := by
  unfold try_acquire
  split
  · exact le_refl tat
  · unfold gcraNewTat satAdd
    split <;> exact le_min (by omega) h

/-- The cell state stays in `u64` range across a call. -/
lemma try_acquire_snd_le (tat now e w : Nat) (h : tat ≤ U64MAX) :
    (try_acquire tat now e w).2 ≤ U64MAX := by
  unfold try_acquire
  split
  · exact h
  · exact gcraNewTat_le_u64max tat now e

/-- On the rate-limited branch the state is returned unchanged and the
wait duration is the positive gap above the ceiling. -/
lemma try_acquire_wait_eq (tat now e w d : Nat)
    (h : (try_acquire tat now e w).1 = AcqResult.wait d) :
    (try_acquire tat now e w).2 = tat ∧ 0 < d := by
  unfold try_acquire at h ⊢
  by_cases hc : satAdd now w < gcraNewTat tat now e
  · rw [if_pos hc] at h ⊢
    refine ⟨rfl, ?_⟩
    have hd : satSub (gcraNewTat tat now e) (satAdd now w) = d := by
      simpa using h
    unfold satSub at hd
    omega
  · rw [if_neg hc] at h
    simp at h

/-- On the admitted branch, when `now + w` does not overflow, the new
state advanced by at least the emission interval over both the old state
and `now`, and sits no later than `now + w`. -/
lemma try_acquire_ok_bounds (tat now e w : Nat) (hw : now + w < U64MAX)
    (h : (try_acquire tat now e w).1 = AcqResult.ok) :
    tat + e ≤ (try_acquire tat now e w).2 ∧
      now + e ≤ (try_acquire tat now e w).2 ∧
      (try_acquire tat now e w).2 ≤ now + w := by
  unfold try_acquire at h ⊢
  by_cases hc : satAdd now w < gcraNewTat tat now e
  · rw [if_pos hc] at h
    simp at h
  · rw [if_neg hc] at h ⊢
    have hlim : satAdd now w = now + w := satAdd_eq_add (le_of_lt hw)
    rw [hlim] at hc
    unfold gcraNewTat satAdd at hc ⊢
    simp only [Nat.min_def] at hc ⊢
    split_ifs at hc ⊢ <;> omega

/-- C1.  `try_acquire` computes the candidate `new_tat` as
`now + emission_interval` when `tat ≤ now` and as `tat + emission_interval`
otherwise (saturating addition, `gcraNewTat`); when `new_tat` exceeds
`now + limit_window` it returns `WAIT(new_tat - (now + limit_window))`
without changing the state, and otherwise it stores `new_tat` and returns
OK.  (The comparison and the subtraction are stated with exact `Nat`
arithmetic; the theorem shows the source's saturating forms agree.) -/
theorem try_acquire_spec (tat now e w : Nat) :
    (tat ≤ now → gcraNewTat tat now e = satAdd now e) ∧
    (now < tat → gcraNewTat tat now e = satAdd tat e) ∧
    (now + w < gcraNewTat tat now e →
      try_acquire tat now e w =
        (AcqResult.wait (gcraNewTat tat now e - (now + w)), tat)) ∧
    (gcraNewTat tat now e ≤ now + w →
      try_acquire tat now e w = (AcqResult.ok, gcraNewTat tat now e)) := by
  refine ⟨fun h => ?_, fun h => ?_, fun h => ?_, fun h => ?_⟩
  · unfold gcraNewTat
    rw [if_pos h]
  · unfold gcraNewTat
    rw [if_neg (by omega)]
  · have hcap : gcraNewTat tat now e ≤ U64MAX := gcraNewTat_le_u64max tat now e
    have hlim : satAdd now w = now + w := satAdd_eq_add (by omega)
    unfold try_acquire
    rw [hlim, if_pos h]
    rfl
  · have hcap : gcraNewTat tat now e ≤ U64MAX := gcraNewTat_le_u64max tat now e
    have hle : gcraNewTat tat now e ≤ satAdd now w := le_min h hcap
    unfold try_acquire
    rw [if_neg (by omega)]

/-- Witness for C1: a concrete admitted call, via `try_acquire_spec`. -/
theorem try_acquire_spec_witness :
    try_acquire 0 0 10 20 = (AcqResult.ok, gcraNewTat 0 0 10) :=
  (try_acquire_spec 0 0 10 20).2.2.2 (by decide)

/-- C6.  When `try_acquire` returns `WAIT(d)` the cell state (`tat`) is
unchanged: the rate-limited branch has no side effect. -/
theorem wait_preserves_tat (tat now e w d : Nat)
    (h : (try_acquire tat now e w).1 = AcqResult.wait d) :
    (try_acquire tat now e w).2 = tat :=
  (try_acquire_wait_eq tat now e w d h).1

/-- Witness for C6: a concrete rate-limited call leaves the state at its
prior value 7. -/
theorem wait_preserves_tat_witness : (try_acquire 7 0 10 5).2 = 7 :=
  wait_preserves_tat 7 0 10 5 12 (by decide)

/-- The two-part `Duration` division equals exact floor division of total
nanoseconds: the seconds and subsecond quotients plus the combined-carry
quotient recombine to `n / r`. -/
lemma durDivNanos_eq_div (n r : Nat) : durDivNanos n r = n / r := by
  rcases Nat.eq_zero_or_pos r with hr | hr
  · subst hr
    simp [durDivNanos]
  · unfold durDivNanos
    set s := n / nanosPerSec with hs
    set n0 := n % nanosPerSec with hn0
    have hn : n = r * (s / r * nanosPerSec + n0 / r) + (s % r * nanosPerSec + n0 % r) := by
      have h1 : nanosPerSec * s + n0 = n := Nat.div_add_mod n nanosPerSec
      have h2 : r * (s / r) + s % r = s := Nat.div_add_mod s r
      have h3 : r * (n0 / r) + n0 % r = n0 := Nat.div_add_mod n0 r
      calc n = nanosPerSec * s + n0 := h1.symm
        _ = nanosPerSec * (r * (s / r) + s % r) + (r * (n0 / r) + n0 % r) := by
            rw [h2, h3]
        _ = r * (s / r * nanosPerSec + n0 / r) + (s % r * nanosPerSec + n0 % r) := by
            ring
    conv_rhs => rw [hn]
    rw [Nat.mul_add_div hr]

/-- The wait returned by `try_acquire` is exact whenever the emission
interval does not exceed the window — true of every parameter pair the
middleware derives from a `RateLimit`. -/
lemma try_acquire_retry_of_le (tat now e w d : Nat) (he : e ≤ w)
    (h : (try_acquire tat now e w).1 = AcqResult.wait d) :
    (try_acquire tat (now + d) e w).1 = AcqResult.ok := by
  unfold try_acquire at h ⊢
  by_cases hc : satAdd now w < gcraNewTat tat now e
  · rw [if_pos hc] at h
    have hd : satSub (gcraNewTat tat now e) (satAdd now w) = d := by
      simpa using h
    have hng : ¬ satAdd (now + d) w < gcraNewTat tat (now + d) e := by
      subst hd
      unfold gcraNewTat satAdd at hc
      unfold gcraNewTat satAdd satSub
      simp only [Nat.min_def] at hc ⊢
      split_ifs at hc ⊢ <;> omega
    rw [if_neg hng]
  · rw [if_neg hc] at h
    simp at h

/-- C5.  For every cell state and every `try_acquire` call at time `now`
with parameters derived from a `RateLimit` — emission interval
`window / requests` and window `window`, so emission ≤ window — that
returns `WAIT(d)`: a second `try_acquire` at `now + d` on the same cell
with the same parameters and no intervening acquires returns OK.  The
returned wait duration is exact. -/
theorem wait_retry_exact (L : RateLimit) (tat now d : Nat)
    (h : (try_acquire tat now (emissionNanos L) L.window).1 = AcqResult.wait d) :
    (try_acquire tat (now + d) (emissionNanos L) L.window).1 = AcqResult.ok :=
  try_acquire_retry_of_le tat now (emissionNanos L) L.window d
    (by
      have he : emissionNanos L = L.window / L.requests :=
        durDivNanos_eq_div L.window L.requests
      rw [he]
      exact Nat.div_le_self _ _) h

/-- Witness for C5: with limit `(2 requests, 10 ns)` (emission 5 ns), a
queued cell (`tat = 20`) rejected at time 0 with `WAIT(15)` admits when
retried at time 15. -/
theorem wait_retry_exact_witness :
    (try_acquire 20 15 (emissionNanos ⟨2, 10⟩) 10).1 = AcqResult.ok := by
  have h := wait_retry_exact ⟨2, 10⟩ 20 0 15 (by decide)
  simpa using h

/-- C8 fails as stated: the valid rate limit `requests = 2`,
`window = 1 ns` has emission interval `1ns / 2 = 0`, not strictly
positive (Rust `Duration` division truncates to zero). -/
theorem emission_pos_cx : validRateLimit 2 1 ∧ durDivNanos 1 2 = 0 := by
  unfold validRateLimit
  exact ⟨⟨by decide, by decide, by decide, by decide⟩, by decide⟩

/-- C8 amended: the emission interval `window / requests` is strictly
positive provided additionally the window is at least `requests`
nanoseconds; for a window shorter than `requests` nanoseconds the floor
division truncates it to zero (see the counterexample). -/
theorem emission_pos_amended (r w : Nat) (h1 : 1 ≤ r) (h3 : r ≤ w) :
    0 < durDivNanos w r := by
  rw [durDivNanos_eq_div]
  exact (Nat.one_le_div_iff (by omega)).mpr h3

/-- Witness for C8 (amended): `requests = 2`, `window = 10 ns` yields a
positive emission interval. -/
theorem emission_pos_amended_witness : 0 < durDivNanos 10 2 :=
  emission_pos_amended 2 10 (by decide) (by decide)

lemma okCount_cons (e w lo hi τ t : Nat) (ts : List Nat) :
    okCount e w lo hi τ (t :: ts) =
      (if (try_acquire τ t e w).1 = AcqResult.ok ∧ lo ≤ t ∧ t ≤ hi then 1 else 0)
        + okCount e w lo hi (try_acquire τ t e w).2 ts := rfl

/-- Every OK call advances the state by at least `e`, and the last counted
OK must fit under its ceiling: starting from `τ`, `k` counted OKs force
`τ + k·e ≤ hi + w`. -/
lemma okCount_pos_bound (e w lo hi : Nat) :
    ∀ (ts : List Nat), (∀ t ∈ ts, t + w < U64MAX) → ∀ τ, τ ≤ U64MAX →
      1 ≤ okCount e w lo hi τ ts → τ + okCount e w lo hi τ ts * e ≤ hi + w := by
  intro ts
  induction ts with
  | nil =>
    intro _ τ _ hk
    simp [okCount] at hk
  | cons t ts ih =>
    intro hmem τ hτ hk
    have htw : t + w < U64MAX := hmem t (List.mem_cons_self t ts)
    have hmem' : ∀ x ∈ ts, x + w < U64MAX := fun x hx => hmem x (List.mem_cons_of_mem t hx)
    rw [okCount_cons] at hk ⊢
    by_cases hcase : (try_acquire τ t e w).1 = AcqResult.ok ∧ lo ≤ t ∧ t ≤ hi
    · rw [if_pos hcase] at hk ⊢
      obtain ⟨hok, hlo, hhi⟩ := hcase
      obtain ⟨hτe, hte, hub⟩ := try_acquire_ok_bounds τ t e w htw hok
      have hτ' : (try_acquire τ t e w).2 ≤ U64MAX := try_acquire_snd_le τ t e w hτ
      rcases Nat.eq_zero_or_pos (okCount e w lo hi (try_acquire τ t e w).2 ts) with h0 | hpos
      · rw [h0]
        omega
      · have hrec := ih hmem' _ hτ' hpos
        have hx : (1 + okCount e w lo hi (try_acquire τ t e w).2 ts) * e
            = e + okCount e w lo hi (try_acquire τ t e w).2 ts * e := by ring
        rw [hx]
        generalize okCount e w lo hi (try_acquire τ t e w).2 ts * e = K at hrec ⊢
        omega
    · rw [if_neg hcase] at hk ⊢
      simp only [Nat.zero_add] at hk ⊢
      have hge := try_acquire_snd_ge τ t e w hτ
      have hle := try_acquire_snd_le τ t e w hτ
      have hrec := ih hmem' _ hle hk
      generalize okCount e w lo hi (try_acquire τ t e w).2 ts * e = K at hrec ⊢
      omega

/-- The first counted OK happens no earlier than `lo`, so `k` counted OKs
force `lo + k·e ≤ hi + w`. -/
lemma okCount_window_bound (e w lo hi : Nat) :
    ∀ (ts : List Nat), (∀ t ∈ ts, t + w < U64MAX) → ∀ τ, τ ≤ U64MAX →
      okCount e w lo hi τ ts = 0 ∨ lo + okCount e w lo hi τ ts * e ≤ hi + w := by
  intro ts
  induction ts with
  | nil => intro _ τ _; left; rfl
  | cons t ts ih =>
    intro hmem τ hτ
    have htw : t + w < U64MAX := hmem t (List.mem_cons_self t ts)
    have hmem' : ∀ x ∈ ts, x + w < U64MAX := fun x hx => hmem x (List.mem_cons_of_mem t hx)
    rw [okCount_cons]
    by_cases hcase : (try_acquire τ t e w).1 = AcqResult.ok ∧ lo ≤ t ∧ t ≤ hi
    · right
      rw [if_pos hcase]
      obtain ⟨hok, hlo, hhi⟩ := hcase
      obtain ⟨hτe, hte, hub⟩ := try_acquire_ok_bounds τ t e w htw hok
      have hτ' : (try_acquire τ t e w).2 ≤ U64MAX := try_acquire_snd_le τ t e w hτ
      rcases Nat.eq_zero_or_pos (okCount e w lo hi (try_acquire τ t e w).2 ts) with h0 | hpos
      · rw [h0]
        omega
      · have hrec := okCount_pos_bound e w lo hi ts hmem' _ hτ' hpos
        have hx : (1 + okCount e w lo hi (try_acquire τ t e w).2 ts) * e
            = e + okCount e w lo hi (try_acquire τ t e w).2 ts * e := by ring
        rw [hx]
        generalize okCount e w lo hi (try_acquire τ t e w).2 ts * e = K at hrec ⊢
        omega
    · rw [if_neg hcase]
      simp only [Nat.zero_add]
      exact ih hmem' _ (try_acquire_snd_le τ t e w hτ)

/-- C2 fails as stated: for the valid limit `requests = 2`,
`window = 10 ns` (emission interval 5), the time-ordered sequence of calls
at times 1, 1, 6 on a fresh cell are all admitted, and all three lie in the
interval `[1, 11]` of length `window`; the OK count 3 exceeds
`requests = 2`. -/
theorem gcra_window_cx :
    validRateLimit 2 10 ∧ durDivNanos 10 2 = 5 ∧
      List.Pairwise (fun a b : Nat => a ≤ b) [1, 1, 6] ∧
      okCount 5 10 1 11 0 [1, 1, 6] = 3 ∧ ¬ okCount 5 10 1 11 0 [1, 1, 6] ≤ 2 := by
  unfold validRateLimit
  exact ⟨⟨by decide, by decide, by decide, by decide⟩, by decide, by decide,
    by decide, by decide⟩

/-- C2 amended: a GCRA cell does not bound the OK count in a window of
length `window` by `requests`; what holds is the GCRA pacing bound — for
any time-ordered call sequence on a fresh cell in which no call time
saturates the 64-bit clock (`t + window < u64::MAX`), the number of OKs in
any closed interval `[lo, lo + window]`, multiplied by the emission
interval, is at most `2·window` (so up to about `2·requests − 1` OKs). -/
theorem gcra_window_amended (requests w lo : Nat) (ts : List Nat)
    (_hord : List.Pairwise (fun a b : Nat => a ≤ b) ts)
    (hrange : ∀ t ∈ ts, t + w < U64MAX) :
    okCount (durDivNanos w requests) w lo (lo + w) 0 ts * durDivNanos w requests
      ≤ 2 * w := by
  rcases okCount_window_bound (durDivNanos w requests) w lo (lo + w) ts hrange 0
      (Nat.zero_le _) with h0 | hb
  · rw [h0, Nat.zero_mul]
    exact Nat.zero_le _
  · generalize okCount (durDivNanos w requests) w lo (lo + w) 0 ts
        * durDivNanos w requests = K at hb ⊢
    omega

/-- Witness for C2 (amended): the counterexample trace satisfies the
corrected bound `3 · 5 ≤ 2 · 10`. -/
theorem gcra_window_amended_witness :
    okCount (durDivNanos 10 2) 10 1 (1 + 10) 0 [1, 1, 6] * durDivNanos 10 2
      ≤ 2 * 10 :=
  gcra_window_amended 2 10 1 [1, 1, 6] (by decide) (by decide)

lemma hostMatch_iff (rh qh : Option (List Char)) :
    hostMatch rh qh = true ↔ (rh = none ∨ ∃ h, rh = some h ∧ qh = some h) := by
  rcases rh with _ | h <;> rcases qh with _ | x <;> simp [hostMatch]

lemma methodMatch_iff (rm : Option (List Char)) (qm : List Char) :
    methodMatch rm qm = true ↔ (rm = none ∨ rm = some qm) := by
  rcases rm with _ | m
  · simp [methodMatch]
  · simp only [methodMatch, beq_iff_eq]
    constructor
    · intro h
      exact Or.inr (by rw [h])
    · rintro (h | h)
      · cases h
      · injection h with h
        rw [h]

lemma pathBoundaryMatch_iff (pre path : List Char) :
    pathBoundaryMatch pre path = true ↔
      (pre = [] ∨ ∃ rest, path = pre ++ rest ∧ (rest = [] ∨ ∃ s, rest = '/' :: s)) := by
  rcases pre with _ | ⟨c, cs⟩
  · simp [pathBoundaryMatch]
  · by_cases hp : (c :: cs).isPrefixOf path
    · obtain ⟨rest, hrest⟩ := List.isPrefixOf_iff_prefix.mp hp
      simp only [pathBoundaryMatch, if_pos hp]
      have hdrop : path.drop (c :: cs).length = rest := by
        rw [← hrest]
        exact List.drop_left _ _
      rw [hdrop]
      constructor
      · intro hm
        refine Or.inr ⟨rest, hrest.symm, ?_⟩
        rcases rest with _ | ⟨r0, rs⟩
        · exact Or.inl rfl
        · simp only [beq_iff_eq] at hm
          exact Or.inr ⟨rs, by rw [hm]⟩
      · rintro (hnil | ⟨rest', hrest', hopt⟩)
        · cases hnil
        · have heq : rest = rest' := List.append_cancel_left (hrest.trans hrest')
          subst heq
          rcases hopt with h0 | ⟨s, hs⟩
          · rw [h0]
          · rw [hs]
            simp
    · simp only [pathBoundaryMatch, if_neg hp]
      simp only [Bool.false_eq_true, false_iff]
      rintro (hnil | ⟨rest', hrest', _⟩)
      · cases hnil
      · exact hp (List.isPrefixOf_iff_prefix.mpr ⟨rest', hrest'.symm⟩)

/-- C4.  A request matches a route iff: the route host is unset or equals
the request's hostname portion exactly (a request with no hostname fails a
specific host); the route method is unset or equal; and the route path
prefix is empty, or the path starts with it and the character immediately
after the prefix is absent or '/'.  In particular "/order" matches
"/order", "/order/", "/order/123" and rejects "/orders", "/order-test". -/
theorem route_matches_spec :
    (∀ (r : Route) (req : Request), Route.matches r req = true ↔ SpecMatches r req) ∧
    (∀ p ∈ [String.toList "/order", String.toList "/order/", String.toList "/order/123"],
      Route.matches orderRoute ⟨none, [], p⟩ = true) ∧
    (∀ p ∈ [String.toList "/orders", String.toList "/order-test"],
      Route.matches orderRoute ⟨none, [], p⟩ = false) := by
  refine ⟨fun r req => ?_, by decide, by decide⟩
  unfold Route.matches SpecMatches
  rw [Bool.and_eq_true, Bool.and_eq_true]
  exact and_congr (hostMatch_iff _ _)
    (and_congr (methodMatch_iff _ _) (pathBoundaryMatch_iff _ _))

lemma admitRoutes_no_match (req : Request) (now : Nat) :
    ∀ (routes : List Route) (i : Nat) (σ : Table),
      (∀ R ∈ routes, Route.matches R req = false) →
      admitRoutes req now routes i σ = (PassOutcome.ok, σ) := by
  intro routes
  induction routes with
  | nil => intro i σ _; rfl
  | cons R rest ih =>
    intro i σ h
    have hR : Route.matches R req = false := h R (List.mem_cons_self R rest)
    simp only [admitRoutes]
    rw [if_neg (by simp [hR])]
    exact ih (i + 1) σ (fun R' hR' => h R' (List.mem_cons_of_mem R hR'))

/-- C9.  When no route matches the request, one pass of
`check_and_apply_limits` returns OK with the state table untouched (so the
outer loop exits immediately with OK): no cell is created and absent keys
stay absent. -/
theorem no_match_no_effect (routes : List Route) (req : Request) (now : Nat)
    (σ : Table) (h : ∀ R ∈ routes, Route.matches R req = false) :
    admitPass routes req now σ = (PassOutcome.ok, σ) :=
  admitRoutes_no_match req now routes 0 σ h

/-- Witness for C9: a host-specific route against a hostless request. -/
theorem no_match_no_effect_witness :
    admitPass [nmRoute] nmReq 0 [] = (PassOutcome.ok, []) :=
  no_match_no_effect [nmRoute] nmReq 0 [] (by decide)

/-- C3 fails as stated: one catch-all route with limits `cxLimitA`,
`cxLimitB` and overflow policy Error, a state where the second cell is
saturated (`tat = 25`) at `now = 5`.  The pass returns
`RateLimited(20)`, yet the first cell — absent before the call — has been
created and advanced to `tat = 105`: a slot was consumed. -/
theorem admit_error_cx :
    (admitPass [cxRoute] cxReq 5 cxTable).1
        = PassOutcome.limited ThrottleBehavior.error 20 ∧
      getTat cxTable ⟨0, 0⟩ = none ∧
      getTat (admitPass [cxRoute] cxReq 5 cxTable).2 ⟨0, 0⟩ = some 105 := by
  decide

lemma getTat_upsert (k k' : RouteKey) (v : Nat) :
    ∀ σ : Table, getTat (upsert σ k v) k' = if k = k' then some v else getTat σ k' := by
  intro σ
  induction σ with
  | nil => simp [upsert, getTat]
  | cons p rest ih =>
    obtain ⟨k0, v0⟩ := p
    by_cases h0 : k0 = k
    · subst h0
      simp only [upsert, if_pos rfl, getTat]
      by_cases h1 : k0 = k'
      · simp [h1]
      · simp [h1]
    · simp only [upsert, if_neg h0, getTat, ih]
      by_cases h2 : k0 = k'
      · have hk : ¬ k = k' := fun he => h0 (h2.trans he.symm)
        simp [h2, hk]
      · simp [h2]

lemma getTat_ensureCell_mono (σ : Table) (k k' : RouteKey) (v : Nat)
    (h : getTat σ k' = some v) : getTat (ensureCell σ k) k' = some v := by
  unfold ensureCell
  cases hg : getTat σ k with
  | some w => exact h
  | none =>
    rw [getTat_upsert]
    by_cases h1 : k = k'
    · subst h1
      rw [hg] at h
      cases h
    · rw [if_neg h1]
      exact h

lemma getTat_ensureCell_self (σ : Table) (k : RouteKey) :
    getTat (ensureCell σ k) k = some ((getTat σ k).getD 0) := by
  unfold ensureCell
  cases hg : getTat σ k with
  | some w => exact hg
  | none =>
    rw [getTat_upsert, if_pos rfl]
    rfl

lemma tableGrows_refl (σ : Table) : tableGrows σ σ :=
  fun _ v h => ⟨v, h, le_refl v⟩

lemma tableGrows_trans {a b c : Table} (h1 : tableGrows a b) (h2 : tableGrows b c) :
    tableGrows a c := by
  intro k v h
  obtain ⟨v1, hb, hv1⟩ := h1 k v h
  obtain ⟨v2, hc, hv2⟩ := h2 k v1 hb
  exact ⟨v2, hc, le_trans hv1 hv2⟩

lemma ensureCell_grows (σ : Table) (k : RouteKey) : tableGrows σ (ensureCell σ k) :=
  fun k' v h => ⟨v, getTat_ensureCell_mono σ k k' v h, le_refl v⟩

lemma ensureCell_bounded (σ : Table) (k : RouteKey) (hb : boundedTable σ) :
    boundedTable (ensureCell σ k) := by
  intro k' v h
  unfold ensureCell at h
  cases hg : getTat σ k with
  | some w =>
    rw [hg] at h
    exact hb k' v h
  | none =>
    rw [hg, getTat_upsert] at h
    by_cases h1 : k = k'
    · rw [if_pos h1] at h
      injection h with h
      subst h
      exact Nat.zero_le _
    · rw [if_neg h1] at h
      exact hb k' v h

/-- One matching route's limit walk only grows the table, and keeps every
stored tat in `u64` range. -/
lemma acquireLimits_grows (now route_index : Nat) (b : ThrottleBehavior) :
    ∀ (limits : List RateLimit) (i : Nat) (σ : Table), boundedTable σ →
      tableGrows σ (acquireLimits now route_index b limits i σ).2 ∧
        boundedTable (acquireLimits now route_index b limits i σ).2 := by
  intro limits
  induction limits with
  | nil =>
    intro i σ hb
    exact ⟨tableGrows_refl σ, hb⟩
  | cons L rest ih =>
    intro i σ hb
    simp only [acquireLimits]
    have hg1 : tableGrows σ (ensureCell σ ⟨route_index, i⟩) :=
      ensureCell_grows σ ⟨route_index, i⟩
    have hb1 : boundedTable (ensureCell σ ⟨route_index, i⟩) :=
      ensureCell_bounded σ ⟨route_index, i⟩ hb
    have hself := getTat_ensureCell_self σ ⟨route_index, i⟩
    have htat0 : (getTat (ensureCell σ ⟨route_index, i⟩) ⟨route_index, i⟩).getD 0 ≤ U64MAX := by
      rw [hself]
      cases hg : getTat σ ⟨route_index, i⟩ with
      | some w => exact hb _ w hg
      | none => exact Nat.zero_le _
    rcases hres : try_acquire ((getTat (ensureCell σ ⟨route_index, i⟩) ⟨route_index, i⟩).getD 0)
        now (emissionNanos L) L.window with ⟨r1, r2⟩
    cases r1 with
    | wait d =>
      exact ⟨hg1, hb1⟩
    | ok =>
      have hr2ge : (getTat (ensureCell σ ⟨route_index, i⟩) ⟨route_index, i⟩).getD 0 ≤ r2 := by
        have := try_acquire_snd_ge ((getTat (ensureCell σ ⟨route_index, i⟩) ⟨route_index, i⟩).getD 0)
          now (emissionNanos L) L.window htat0
        rw [hres] at this
        exact this
      have hr2le : r2 ≤ U64MAX := by
        have := try_acquire_snd_le ((getTat (ensureCell σ ⟨route_index, i⟩) ⟨route_index, i⟩).getD 0)
          now (emissionNanos L) L.window htat0
        rw [hres] at this
        exact this
      have hg2 : tableGrows (ensureCell σ ⟨route_index, i⟩)
          (upsert (ensureCell σ ⟨route_index, i⟩) ⟨route_index, i⟩ r2) := by
        intro k' v h
        rw [getTat_upsert]
        by_cases h1 : (⟨route_index, i⟩ : RouteKey) = k'
        · subst h1
          rw [if_pos rfl]
          refine ⟨r2, rfl, ?_⟩
          rw [hself] at h
          injection h with h
          subst h
          rw [hself] at hr2ge
          simpa using hr2ge
        · rw [if_neg h1]
          exact ⟨v, h, le_refl v⟩
      have hb2 : boundedTable (upsert (ensureCell σ ⟨route_index, i⟩) ⟨route_index, i⟩ r2) := by
        intro k' v h
        rw [getTat_upsert] at h
        by_cases h1 : (⟨route_index, i⟩ : RouteKey) = k'
        · rw [if_pos h1] at h
          injection h with h
          subst h
          exact hr2le
        · rw [if_neg h1] at h
          exact hb1 k' v h
      obtain ⟨hg3, hb3⟩ := ih (i + 1) (upsert (ensureCell σ ⟨route_index, i⟩) ⟨route_index, i⟩ r2) hb2
      exact ⟨tableGrows_trans hg1 (tableGrows_trans hg2 hg3), hb3⟩

/-- The full route walk only grows the table. -/
lemma admitRoutes_grows (req : Request) (now : Nat) :
    ∀ (routes : List Route) (i : Nat) (σ : Table), boundedTable σ →
      tableGrows σ (admitRoutes req now routes i σ).2 ∧
        boundedTable (admitRoutes req now routes i σ).2 := by
  intro routes
  induction routes with
  | nil =>
    intro i σ hb
    exact ⟨tableGrows_refl σ, hb⟩
  | cons R rest ih =>
    intro i σ hb
    simp only [admitRoutes]
    by_cases hm : Route.matches R req
    · rw [if_pos hm]
      rcases hacq : acquireLimits now i R.onLimit R.limits 0 σ with ⟨o, σ1⟩
      have hstep := acquireLimits_grows now i R.onLimit R.limits 0 σ hb
      rw [hacq] at hstep
      cases o with
      | ok =>
        obtain ⟨hg2, hb2⟩ := ih (i + 1) σ1 hstep.2
        exact ⟨tableGrows_trans hstep.1 hg2, hb2⟩
      | limited b' d' =>
        exact hstep
    · rw [if_neg hm]
      exact ih (i + 1) σ hb

/-- C3 amended: when `check_and_apply_limits` returns `RateLimited`, cells
acquired earlier in the walk may already have been advanced (the
counterexample shows one) — consumption is not rolled back.  What does
hold: no cell's tat decreases and no entry disappears; every cell present
before the call is still present afterwards with a tat at least its prior
value. -/
theorem admit_error_amended (routes : List Route) (req : Request) (now : Nat)
    (σ : Table) (b : ThrottleBehavior) (d : Nat) (hb : boundedTable σ)
    (_hlim : (admitPass routes req now σ).1 = PassOutcome.limited b d)
    (k : RouteKey) (v : Nat) (hk : getTat σ k = some v) :
    ∃ v', getTat (admitPass routes req now σ).2 k = some v' ∧ v ≤ v' :=
  (admitRoutes_grows req now routes 0 σ hb).1 k v hk

/-- Witness for C3 (amended): in the counterexample scenario the saturated
cell `(0,1)` survives the rejected pass with its tat intact. -/
theorem admit_error_amended_witness :
    ∃ v', getTat (admitPass [cxRoute] cxReq 5 cxTable).2 ⟨0, 1⟩ = some v' ∧ 25 ≤ v' :=
  admit_error_amended [cxRoute] cxReq 5 cxTable ThrottleBehavior.error 20
    (by
      intro k v h
      simp only [cxTable, getTat] at h
      split at h
      · injection h with h
        subst h
        decide
      · cases h)
    (by decide) ⟨0, 1⟩ 25 (by decide)

lemma keepEntry_iff (routes : List Route) (now : Nat) (k : RouteKey) (tat : Nat)
    (hnow : now ≤ U64MAX) :
    keepEntry routes now k tat = true ↔
      ∃ L, limitOf routes k = some L ∧ now - 2 * L.window < tat := by
  unfold keepEntry limitOf
  cases hR : routes[k.route_index]? with
  | none => simp
  | some R =>
    dsimp only
    cases hL : R.limits[k.limit_index]? with
    | none =>
      simp [hL]
    | some L =>
      dsimp only
      simp only [decide_eq_true_eq, Option.some.injEq, exists_eq_left']
      unfold satSub satMul
      simp only [Nat.min_def]
      split_ifs <;> omega

/-- C7.  `cleanup` retains exactly the in-bounds entries with
`tat > now − 2·window(k)` (truncated subtraction, as the unsigned source
computes it): an entry survives iff it was present, its key is in bounds
for the current route table, and its tat beats the staleness threshold;
survivors keep their tat unchanged.  Removed are exactly the complement:
stale entries (`tat ≤ now − 2·window(k)`) and out-of-bounds keys. -/
theorem cleanup_spec (routes : List Route) (σ : Table) (now : Nat)
    (hnow : now ≤ U64MAX) (k : RouteKey) (tat : Nat) :
    (k, tat) ∈ cleanup routes now σ ↔
      ((k, tat) ∈ σ ∧ ∃ L, limitOf routes k = some L ∧ now - 2 * L.window < tat) := by
  unfold cleanup
  rw [List.mem_filter]
  exact and_congr Iff.rfl (keepEntry_iff routes now k tat hnow)

/-- Witness for C7: a recently active cell survives cleanup. -/
theorem cleanup_spec_witness :
    ((⟨0, 0⟩ : RouteKey), 50) ∈ cleanup [cxRoute] 5 [(⟨0, 0⟩, 50)] :=
  (cleanup_spec [cxRoute] [(⟨0, 0⟩, 50)] 5 (by decide) ⟨0, 0⟩ 50).mpr
    ⟨by decide, cxLimitA, by decide, by decide⟩

lemma acquireLimits_limited_pos (now route_index : Nat) (b : ThrottleBehavior) :
    ∀ (limits : List RateLimit) (i : Nat) (σ : Table) (b' : ThrottleBehavior) (d : Nat),
      (acquireLimits now route_index b limits i σ).1 = PassOutcome.limited b' d →
      0 < d := by
  intro limits
  induction limits with
  | nil =>
    intro i σ b' d h
    exact PassOutcome.noConfusion h
  | cons L rest ih =>
    intro i σ b' d h
    simp only [acquireLimits] at h
    rcases hres : try_acquire ((getTat (ensureCell σ ⟨route_index, i⟩) ⟨route_index, i⟩).getD 0)
        now (emissionNanos L) L.window with ⟨r1, r2⟩
    rw [hres] at h
    cases r1 with
    | ok => exact ih (i + 1) _ b' d h
    | wait d0 =>
      have hw : (try_acquire ((getTat (ensureCell σ ⟨route_index, i⟩) ⟨route_index, i⟩).getD 0)
          now (emissionNanos L) L.window).1 = AcqResult.wait d0 := by
        rw [hres]
      have hpos := (try_acquire_wait_eq _ _ _ _ _ hw).2
      have h2 : PassOutcome.limited b d0 = PassOutcome.limited b' d := h
      injection h2 with hb2 hd2
      omega

lemma admitRoutes_limited_pos (req : Request) (now : Nat) :
    ∀ (routes : List Route) (i : Nat) (σ : Table) (b : ThrottleBehavior) (d : Nat),
      (admitRoutes req now routes i σ).1 = PassOutcome.limited b d → 0 < d := by
  intro routes
  induction routes with
  | nil =>
    intro i σ b d h
    exact PassOutcome.noConfusion h
  | cons R rest ih =>
    intro i σ b d h
    simp only [admitRoutes] at h
    by_cases hm : Route.matches R req
    · rw [if_pos hm] at h
      rcases hacq : acquireLimits now i R.onLimit R.limits 0 σ with ⟨o, σ1⟩
      rw [hacq] at h
      cases o with
      | ok => exact ih (i + 1) σ1 b d h
      | limited b2 d2 =>
        have h2 : PassOutcome.limited b2 d2 = PassOutcome.limited b d := h
        injection h2 with hb2 hd2
        have hacq1 : (acquireLimits now i R.onLimit R.limits 0 σ).1
            = PassOutcome.limited b2 d2 := by
          rw [hacq]
        have hpos := acquireLimits_limited_pos now i R.onLimit R.limits 0 σ b2 d2 hacq1
        omega
    · rw [if_neg hm] at h
      exact ih (i + 1) σ b d h

/-- C10.  A WAIT from `try_acquire` always carries a strictly positive
duration (at least one nanosecond), and consequently a rate-limited pass
of `check_and_apply_limits` — in particular a returned `RateLimited`
error — never carries a zero wait duration. -/
theorem wait_duration_pos :
    (∀ tat now e w d, (try_acquire tat now e w).1 = AcqResult.wait d → 0 < d) ∧
    (∀ (routes : List Route) (req : Request) (now : Nat) (σ : Table)
        (b : ThrottleBehavior) (d : Nat),
      (admitPass routes req now σ).1 = PassOutcome.limited b d → 0 < d) :=
  ⟨fun tat now e w d h => (try_acquire_wait_eq tat now e w d h).2,
   fun routes req now σ b d h => admitRoutes_limited_pos req now routes 0 σ b d h⟩

/-- Witness for C10: a concrete saturated call returns wait 5, positive. -/
theorem wait_duration_pos_witness :
    (try_acquire 0 0 10 5).1 = AcqResult.wait 5 ∧ 0 < 5 :=
  ⟨by decide, wait_duration_pos.1 0 0 10 5 5 (by decide)⟩
